import Mathlib

/-!
Verification of the HandPlusPlus event-to-action pipeline.

The definitions below are a shallow embedding of the Rust core:
`crates/input-capture/src/lib.rs` (the input vocabulary and `Hotkey`),
`crates/binding-engine/src/lib.rs` (`BindingRegistry`, `StateTracker`,
`EventProcessor`) and `crates/action-executor/src/lib.rs` (`Action` and
`Action::execute`).  Rust `Vec` becomes `List`, `HashMap` becomes an
association list with replace-on-insert, `Duration` becomes a count of
nanoseconds, and the fallible `ActionExecutor` capability becomes an
explicit environment of success predicates together with a recorded trace
of primitive calls.  Definitions whose doc comment starts with
`Modelled from the spec:` embed behaviour whose implementing code is
absent from the repository (stubbed with `todo!()` or a `TODO` comment);
they follow the specification's words instead.
-/

namespace HandPlusPlus

/-- Keyboard keys: the closed `Key` enumeration of `input-capture`. -/
inductive Key
  | A | B | C | D | E | F | G | H | I | J | K | L | M
  | N | O | P | Q | R | S | T | U | V | W | X | Y | Z
  | Num0 | Num1 | Num2 | Num3 | Num4 | Num5 | Num6 | Num7 | Num8 | Num9
  | Ctrl | Shift | Alt | Meta
  | F1 | F2 | F3 | F4 | F5 | F6 | F7 | F8 | F9 | F10 | F11 | F12
  | Enter | Escape | Space | Tab | Backspace
deriving DecidableEq, Repr

/-- Mouse buttons: the closed `MouseButton` enumeration of `input-capture`. -/
inductive MouseButton
  | Left | Right | Middle | Button4 | Button5
deriving DecidableEq, Repr

/-- Hotkey modifiers: the closed `Modifier` enumeration of `input-capture`. -/
inductive Modifier
  | Ctrl | Shift | Alt | Meta
deriving DecidableEq, Repr

/-- The `Trigger` sum type of `input-capture`. -/
inductive Trigger
  | Key (key : Key)
  | MouseButton (button : MouseButton)
deriving DecidableEq, Repr

/-- Platform-independent `InputEvent` of `input-capture`. -/
inductive InputEvent
  | KeyPress (key : Key)
  | KeyRelease (key : Key)
  | MousePress (button : MouseButton)
  | MouseRelease (button : MouseButton)
  | MouseMove (x y : Int)
deriving DecidableEq, Repr

/-- The `Hotkey` struct of `input-capture`: `modifiers` is a `Vec<Modifier>`
(a sequence, not a set) and the derived equality is the structural one, so
it is order-dependent over `modifiers` exactly as Rust's derived
`PartialEq` on `Vec` is. -/
structure Hotkey where
  modifiers : List Modifier
  trigger : Trigger
deriving DecidableEq, Repr

/-- `Hotkey::key`. -/
def Hotkey.key (key : Key) : Hotkey := ⟨[], .Key key⟩

/-- `Hotkey::mouse`. -/
def Hotkey.mouse (button : MouseButton) : Hotkey := ⟨[], .MouseButton button⟩

/-- `Hotkey::combo`. -/
def Hotkey.combo (modifiers : List Modifier) (trigger : Trigger) : Hotkey :=
  ⟨modifiers, trigger⟩

/-- The `StateTracker` of `binding-engine`: the currently held keys and
mouse buttons, each a `Vec` in the source. -/
structure StateTracker where
  held_keys : List Key
  held_buttons : List MouseButton
deriving DecidableEq, Repr

/-- `StateTracker::new`. -/
def StateTracker.new : StateTracker := ⟨[], []⟩

/-- `StateTracker::update`: press pushes the key/button if absent, release
retains everything different from it, other events are ignored. -/
def StateTracker.update (s : StateTracker) (event : InputEvent) : StateTracker :=
  match event with
  | .KeyPress key =>
      if s.held_keys.contains key then s
      else { s with held_keys := s.held_keys ++ [key] }
  | .KeyRelease key =>
      { s with held_keys := s.held_keys.filter (fun k => k != key) }
  | .MousePress button =>
      if s.held_buttons.contains button then s
      else { s with held_buttons := s.held_buttons ++ [button] }
  | .MouseRelease button =>
      { s with held_buttons := s.held_buttons.filter (fun b => b != button) }
  | .MouseMove _ _ => s

/-- `StateTracker::is_key_held`. -/
def StateTracker.is_key_held (s : StateTracker) (key : Key) : Bool :=
  s.held_keys.contains key

/-- `StateTracker::is_button_held`. -/
def StateTracker.is_button_held (s : StateTracker) (button : MouseButton) : Bool :=
  s.held_buttons.contains button

/-- A fresh tracker fed a whole event sequence, in order. -/
def StateTracker.run (events : List InputEvent) : StateTracker :=
  events.foldl StateTracker.update StateTracker.new

/-- One step of the press counter of the specification's property: a press
of `key` increments, a release of `key` resets to zero, anything else is
ignored. -/
def pressesStep (key : Key) (c : Nat) (event : InputEvent) : Nat :=
  match event with
  | .KeyPress k => if k = key then c + 1 else c
  | .KeyRelease k => if k = key then 0 else c
  | _ => c

/-- The number of presses of `key` since the last release of `key` in
`events`. -/
def pressesSinceLastRelease (key : Key) (events : List InputEvent) : Nat :=
  events.foldl (pressesStep key) 0

theorem contains_iff_mem {α : Type} [DecidableEq α] (l : List α) (a : α) :
    l.contains a = true ↔ a ∈ l := by
  simp [List.contains]

theorem held_keys_update_mem (s : StateTracker) (event : InputEvent) (key : Key) :
    key ∈ (s.update event).held_keys ↔
      match event with
      | .KeyPress k => key ∈ s.held_keys ∨ key = k
      | .KeyRelease k => key ∈ s.held_keys ∧ key ≠ k
      | _ => key ∈ s.held_keys := by
  cases event with
  | KeyPress k =>
      simp only [StateTracker.update]
      split
      · next hc =>
          have hk : k ∈ s.held_keys := (contains_iff_mem _ _).mp hc
          constructor
          · exact Or.inl
          · rintro (h' | rfl)
            · exact h'
            · exact hk
      · next hc => simp [List.mem_append]
  | KeyRelease k =>
      simp only [StateTracker.update]
      simp [List.mem_filter]
  | MousePress b =>
      simp only [StateTracker.update]
      split <;> exact Iff.rfl
  | MouseRelease b => exact Iff.rfl
  | MouseMove x y => exact Iff.rfl

theorem held_invariant_step (key : Key) (s : StateTracker) (c : Nat)
    (event : InputEvent) (h : s.is_key_held key = true ↔ 1 ≤ c) :
    (s.update event).is_key_held key = true ↔ 1 ≤ pressesStep key c event := by
  have hm : ∀ t : StateTracker, (t.is_key_held key = true) ↔ key ∈ t.held_keys :=
    fun t => contains_iff_mem _ _
  rw [hm, held_keys_update_mem]
  cases event with
  | KeyPress k =>
      by_cases hk : k = key
      · subst hk; simp [pressesStep]
      · simp [pressesStep, hk, Ne.symm hk, ← hm, h]
  | KeyRelease k =>
      by_cases hk : k = key
      · subst hk; simp [pressesStep]
      · simp [pressesStep, hk, Ne.symm hk, ← hm, h]
  | MousePress b => simpa [pressesStep, ← hm] using h
  | MouseRelease b => simpa [pressesStep, ← hm] using h
  | MouseMove x y => simpa [pressesStep, ← hm] using h

theorem held_invariant_run (key : Key) (events : List InputEvent) :
    ∀ (s : StateTracker) (c : Nat), (s.is_key_held key = true ↔ 1 ≤ c) →
      ((events.foldl StateTracker.update s).is_key_held key = true ↔
        1 ≤ events.foldl (pressesStep key) c) := by
  induction events with
  | nil => intro s c h; simpa using h
  | cons e rest ih =>
      intro s c h
      exact ih _ _ (held_invariant_step key s c e h)

theorem held_keys_nodup_update (s : StateTracker) (event : InputEvent)
    (h : s.held_keys.Nodup) : (s.update event).held_keys.Nodup := by
  cases event with
  | KeyPress k =>
      simp only [StateTracker.update]
      split
      · exact h
      · next hc =>
          have hnm : k ∉ s.held_keys := fun hmem =>
            hc ((contains_iff_mem _ _).mpr hmem)
          simp [List.nodup_append, h, hnm]
  | KeyRelease k => exact List.Nodup.filter _ h
  | MousePress b =>
      simp only [StateTracker.update]
      split <;> exact h
  | MouseRelease b => exact h
  | MouseMove x y => exact h

theorem held_keys_nodup_run (events : List InputEvent) :
    (StateTracker.run events).held_keys.Nodup := by
  suffices h : ∀ s : StateTracker, s.held_keys.Nodup →
      (events.foldl StateTracker.update s).held_keys.Nodup by
    exact h StateTracker.new List.nodup_nil
  induction events with
  | nil => intro s hs; simpa using hs
  | cons e rest ih =>
      intro s hs
      exact ih _ (held_keys_nodup_update s e hs)

/-- C3: for every event sequence fed to a fresh `StateTracker`,
`is_key_held k` is true iff at least one press of `k` happened since the
last release of `k`; the held set never holds a duplicate; pressing an
already-held key leaves the tracker unchanged (idempotent press); and
releasing a key that is not held leaves the tracker unchanged (a no-op,
not an error). -/
theorem stateTracker_is_key_held_spec (events : List InputEvent) (key : Key) :
    ((StateTracker.run events).is_key_held key = true ↔
        1 ≤ pressesSinceLastRelease key events)
    ∧ (StateTracker.run events).held_keys.Nodup
    ∧ ((StateTracker.run events).is_key_held key = true →
        (StateTracker.run events).update (.KeyPress key) = StateTracker.run events)
    ∧ ((StateTracker.run events).is_key_held key = false →
        (StateTracker.run events).update (.KeyRelease key) = StateTracker.run events) := by
  refine ⟨?_, held_keys_nodup_run events, ?_, ?_⟩
  · have h0 : StateTracker.new.is_key_held key = false := rfl
    exact held_invariant_run key events StateTracker.new 0 (by simp [h0])
  · intro h
    have h' : (StateTracker.run events).held_keys.contains key = true := h
    simp only [StateTracker.update, h', if_true]
  · intro h
    have hnm : key ∉ (StateTracker.run events).held_keys := by
      intro hmem
      have hc := (contains_iff_mem _ _).mpr hmem
      rw [StateTracker.is_key_held] at h
      rw [hc] at h
      cases h
    have hfe : (StateTracker.run events).held_keys.filter (fun k => k != key) =
        (StateTracker.run events).held_keys := by
      apply List.filter_eq_self.mpr
      intro a ha
      simp only [bne_iff_ne, ne_eq, decide_eq_true_eq]
      intro hak
      exact hnm (hak ▸ ha)
    simp only [StateTracker.update, hfe]

/-- A `std::time::Duration`, as a count of nanoseconds. -/
abbrev Duration := Nat

/-- `Duration::as_millis` (truncating division). -/
def durationAsMillis (d : Duration) : Nat := d / 1000000

/-- `Duration::from_millis`. -/
def durationFromMillis (ms : Nat) : Duration := ms * 1000000

/-- The recursive `Action` tree of `action-executor`. -/
inductive Action
  | PressKey (key : Key)
  | Click (button : MouseButton)
  | HoldKey (key : Key)
  | ReleaseKey (key : Key)
  | Sequence (actions : List Action)
  | RepeatWhileHeld (actions : List Action) (interval : Duration)
  | Delay (duration : Duration)
  | RandomDelay (min max : Duration)
  | TypeText (text : String)

/-- The `BindingRegistry` of `binding-engine`: a `HashMap<Hotkey, Action>`,
modelled as an association list whose keys are distinct. -/
structure BindingRegistry where
  bindings : List (Hotkey × Action)

/-- `BindingRegistry::new`. -/
def BindingRegistry.new : BindingRegistry := ⟨[]⟩

/-- `HashMap::insert` on the association-list model: the new entry replaces
any previous entry with an equal key (equality being `Hotkey`'s derived,
order-dependent one, the same equality the `HashMap` uses). -/
def insertEntry (l : List (Hotkey × Action)) (hotkey : Hotkey) (action : Action) :
    List (Hotkey × Action) :=
  (hotkey, action) :: l.filter (fun p => p.1 != hotkey)

/-- `BindingRegistry::bind`. -/
def BindingRegistry.bind (r : BindingRegistry) (hotkey : Hotkey) (action : Action) :
    BindingRegistry :=
  ⟨insertEntry r.bindings hotkey action⟩

/-- `HashMap::get` on the association-list model. -/
def lookupEntry : List (Hotkey × Action) → Hotkey → Option Action
  | [], _ => none
  | p :: rest, hotkey => if p.1 = hotkey then some p.2 else lookupEntry rest hotkey

/-- `BindingRegistry::get_action` (`HashMap::get`). -/
def BindingRegistry.get_action (r : BindingRegistry) (hotkey : Hotkey) : Option Action :=
  lookupEntry r.bindings hotkey

/-- `BindingRegistry::is_registered` (`HashMap::contains_key`). -/
def BindingRegistry.is_registered (r : BindingRegistry) (hotkey : Hotkey) : Bool :=
  r.bindings.any (fun p => p.1 == hotkey)

/-- `BindingRegistry::len`. -/
def BindingRegistry.len (r : BindingRegistry) : Nat := r.bindings.length

theorem lookupEntry_filter_ne (l : List (Hotkey × Action)) (h h' : Hotkey)
    (hne : h' ≠ h) :
    lookupEntry (l.filter (fun p => p.1 != h)) h' = lookupEntry l h' := by
  induction l with
  | nil => rfl
  | cons p rest ih =>
      by_cases hp : p.1 = h
      · have h1 : (p.1 != h) = false := by simp [hp]
        have h2 : p.1 ≠ h' := by
          rw [hp]; exact fun he => hne he.symm
        simp [List.filter_cons, h1, lookupEntry, h2, ih]
      · have h1 : (p.1 != h) = true := by simp [hp]
        simp [List.filter_cons, h1, lookupEntry, ih]

/-- C4: binding the same `Hotkey` twice is last-write-wins — after
`bind(h, a1)` then `bind(h, a2)`, `get_action h` returns `a2`, and (when the
two actions differ) never `a1`. -/
theorem bind_last_write_wins (r : BindingRegistry) (h : Hotkey) (a1 a2 : Action) :
    ((r.bind h a1).bind h a2).get_action h = some a2
    ∧ (a1 ≠ a2 → ((r.bind h a1).bind h a2).get_action h ≠ some a1) := by
  have hlook : ((r.bind h a1).bind h a2).get_action h = some a2 := by
    simp [BindingRegistry.get_action, BindingRegistry.bind, insertEntry, lookupEntry]
  refine ⟨hlook, fun hne hcontra => ?_⟩
  rw [hlook] at hcontra
  exact hne (Option.some_injective _ hcontra).symm

/-- C9: the membership query agrees with the lookup — `is_registered h` is
true exactly when `get_action h` returns some action. -/
theorem is_registered_iff_get_action_isSome (r : BindingRegistry) (h : Hotkey) :
    r.is_registered h = true ↔ (r.get_action h).isSome = true := by
  rw [BindingRegistry.is_registered, BindingRegistry.get_action]
  induction r.bindings with
  | nil => simp [lookupEntry]
  | cons p rest ih =>
      by_cases hp : p.1 = h
      · simp [lookupEntry, hp]
      · simp [lookupEntry, hp, ih]

/-- C10: binding one hotkey is invisible to every other hotkey — for
`h' ≠ h`, `get_action h'` is unchanged by `bind h a`. -/
theorem bind_preserves_other_bindings (r : BindingRegistry) (h h' : Hotkey)
    (a : Action) (hne : h' ≠ h) :
    (r.bind h a).get_action h' = r.get_action h' := by
  have h2 : h ≠ h' := fun he => hne he.symm
  simp only [BindingRegistry.get_action, BindingRegistry.bind, insertEntry,
    lookupEntry, if_neg h2]
  exact lookupEntry_filter_ne r.bindings h h' hne

/-- C10 witness: binding `Ctrl+P` does not change what `F1` is bound to. -/
theorem bind_preserves_other_bindings_witness :
    ((BindingRegistry.new.bind (Hotkey.key .F1) (.PressKey .Enter)).bind
        (Hotkey.combo [.Ctrl] (.Key .P)) (.PressKey .A)).get_action (Hotkey.key .F1) =
      (BindingRegistry.new.bind (Hotkey.key .F1) (.PressKey .Enter)).get_action
        (Hotkey.key .F1) :=
  bind_preserves_other_bindings
    (BindingRegistry.new.bind (Hotkey.key .F1) (.PressKey .Enter))
    (Hotkey.combo [.Ctrl] (.Key .P)) (Hotkey.key .F1) (.PressKey .A) (by decide)

/-- C2 (code bug): `Hotkey`'s derived equality is over the `Vec<Modifier>`
sequence, so two hotkeys carrying the same modifiers in different insertion
order — here `[Ctrl, Shift]` versus `[Shift, Ctrl]` with trigger `P` — are a
permutation of one another yet compare unequal. -/
theorem hotkey_eq_insertion_order_dependent :
    ([Modifier.Ctrl, Modifier.Shift].Perm [Modifier.Shift, Modifier.Ctrl])
    ∧ Hotkey.combo [.Ctrl, .Shift] (.Key .P) ≠ Hotkey.combo [.Shift, .Ctrl] (.Key .P) := by
  constructor
  · exact List.Perm.swap _ _ _
  · decide

/-- The `InputState` enumeration of `action-executor`. -/
inductive InputState
  | Press | Release
deriving DecidableEq, Repr

/-- One primitive call against the `ActionExecutor` capability (plus the
`tokio::time::sleep` suspension, recorded with the slept duration). -/
inductive PrimCall
  | simulate_key (key : Key) (state : InputState)
  | simulate_mouse (button : MouseButton) (state : InputState)
  | sleep (duration : Duration)
deriving DecidableEq, Repr

/-- Why an execution ended abnormally: a primitive call returned `Err`
(propagated by `?`), or the code reached a `todo!()`/panicking branch. -/
inductive RunError
  | CallFailed (call : PrimCall)
  | Panicked
deriving DecidableEq, Repr

/-- The result of running an action: `Ok(())` or an abnormal end. -/
inductive Outcome
  | ok
  | fail (error : RunError)
deriving DecidableEq, Repr

/-- The environment an execution runs against: which primitive calls the
platform `ActionExecutor` accepts, and the `rand::thread_rng().gen_range`
draw (as a function of the inclusive bounds, in milliseconds). -/
structure ExecModel where
  key_ok : Key → InputState → Bool
  mouse_ok : MouseButton → InputState → Bool
  gen_range : Nat → Nat → Nat

/-- An execution's observable behaviour: the ordered trace of primitive
calls it made, and its outcome. -/
abbrev ExecResult := List PrimCall × Outcome

/-- Sequencing of two fallible executions: Rust's `?` — the second runs
only when the first succeeded, and a failure propagates unchanged. -/
def andThenE (r : ExecResult) (f : Unit → ExecResult) : ExecResult :=
  match r with
  | (t, .ok) =>
      let r2 := f ()
      (t ++ r2.1, r2.2)
  | (t, .fail e) => (t, .fail e)

/-- `executor.simulate_key(key, state)` with its trace entry. -/
def simulate_key_call (env : ExecModel) (key : Key) (state : InputState) : ExecResult :=
  ([.simulate_key key state],
    if env.key_ok key state then .ok else .fail (.CallFailed (.simulate_key key state)))

/-- `executor.simulate_mouse(button, state)` with its trace entry. -/
def simulate_mouse_call (env : ExecModel) (button : MouseButton) (state : InputState) :
    ExecResult :=
  ([.simulate_mouse button state],
    if env.mouse_ok button state then .ok
    else .fail (.CallFailed (.simulate_mouse button state)))

mutual
/-- Shallow embedding of `Action::execute`.  `PressKey`/`Click` are a press
call then a release call chained by `?`; `HoldKey`/`ReleaseKey` are single
calls; `Sequence` runs its elements in order with `?` after each;
`Delay` sleeps; `RandomDelay` draws
`gen_range(min.as_millis()..=max.as_millis())` (a panic when the range is
empty, as `rand` panics) and sleeps `from_millis(draw as u64)`;
`RepeatWhileHeld` and `TypeText` are `todo!()` in the source, i.e. a panic. -/
def Action.execute (env : ExecModel) : Action → ExecResult
  | .PressKey key =>
      andThenE (simulate_key_call env key .Press) fun _ =>
        simulate_key_call env key .Release
  | .Click button =>
      andThenE (simulate_mouse_call env button .Press) fun _ =>
        simulate_mouse_call env button .Release
  | .HoldKey key => simulate_key_call env key .Press
  | .ReleaseKey key => simulate_key_call env key .Release
  | .Sequence actions => executeList env actions
  | .RepeatWhileHeld _ _ => ([], .fail .Panicked)
  | .Delay duration => ([.sleep duration], .ok)
  | .RandomDelay lo hi =>
      if durationAsMillis hi < durationAsMillis lo then ([], .fail .Panicked)
      else
        ([.sleep (durationFromMillis
            (env.gen_range (durationAsMillis lo) (durationAsMillis hi) % 2 ^ 64))],
          .ok)
  | .TypeText _ => ([], .fail .Panicked)

/-- The `for action in actions { action.execute(executor).await? }` loop of
the `Sequence` branch. -/
def executeList (env : ExecModel) : List Action → ExecResult
  | [] => ([], .ok)
  | action :: rest =>
      andThenE (Action.execute env action) fun _ => executeList env rest
end

theorem andThenE_ok (r : ExecResult) (f : Unit → ExecResult) (h : r.2 = .ok) :
    andThenE r f = (r.1 ++ (f ()).1, (f ()).2) := by
  rcases r with ⟨t, o⟩
  cases o with
  | ok => rfl
  | fail e => cases h

theorem andThenE_fail (r : ExecResult) (f : Unit → ExecResult) (e : RunError)
    (h : r.2 = .fail e) : andThenE r f = (r.1, .fail e) := by
  rcases r with ⟨t, o⟩
  cases o with
  | ok => cases h
  | fail e' =>
      cases h
      rfl

theorem executeList_all_ok (env : ExecModel) (l : List Action)
    (h : ∀ a ∈ l, (Action.execute env a).2 = .ok) :
    executeList env l = ((l.map fun a => (Action.execute env a).1).flatten, .ok) := by
  induction l with
  | nil => rfl
  | cons a rest ih =>
      have ha : (Action.execute env a).2 = .ok := h a (List.mem_cons_self a rest)
      have hrest := ih fun b hb => h b (List.mem_cons_of_mem a hb)
      rw [executeList, andThenE_ok _ _ ha, hrest]
      simp

/-- C5: `Sequence` is strictly ordered and fail-fast.  If every element of
`l1` succeeds and `b` ends with error `e`, then executing
`Sequence (l1 ++ b :: l2)` runs exactly the traces of `l1` in order then
`b`'s trace — the elements of `l2` after the failing one are never
executed — and the overall outcome is `b`'s failure `e`; and (second
conjunct) a `Sequence` all of whose elements succeed runs all their traces
in order and succeeds. -/
theorem sequence_fail_fast (env : ExecModel) (l1 l2 : List Action) (b : Action)
    (e : RunError)
    (h1 : ∀ a ∈ l1, (Action.execute env a).2 = .ok)
    (hb : (Action.execute env b).2 = .fail e) :
    Action.execute env (.Sequence (l1 ++ b :: l2)) =
      ((l1.map fun a => (Action.execute env a).1).flatten ++ (Action.execute env b).1,
        .fail e)
    ∧ ∀ l : List Action, (∀ a ∈ l, (Action.execute env a).2 = .ok) →
        Action.execute env (.Sequence l) =
          ((l.map fun a => (Action.execute env a).1).flatten, .ok) := by
  constructor
  · show executeList env (l1 ++ b :: l2) = _
    induction l1 with
    | nil =>
        simp only [List.nil_append, List.map_nil, executeList]
        rw [andThenE_fail _ _ e hb]
        simp
    | cons a rest ih =>
        have ha : (Action.execute env a).2 = .ok := h1 a (List.mem_cons_self a rest)
        have hrest := ih fun x hx => h1 x (List.mem_cons_of_mem a hx)
        simp only [List.cons_append, executeList]
        rw [andThenE_ok _ _ ha]
        simp only [List.append_eq]
        rw [hrest]
        simp
  · intro l hl
    show executeList env l = _
    exact executeList_all_ok env l hl

/-- The model of an executor that rejects presses and releases of the `B`
key and accepts everything else; its `gen_range` returns the lower bound. -/
def envFailB : ExecModel :=
  ⟨fun key _ => key != Key.B, fun _ _ => true, fun lo _ => lo⟩

/-- C5 witness: in `Sequence [PressKey A, PressKey B, PressKey C]` against
an executor that fails on `B`, `A`'s press and release run, `B`'s press
runs and fails, `C` never runs, and the failure is `B`'s. -/
theorem sequence_fail_fast_witness :
    Action.execute envFailB
        (.Sequence ([.PressKey .A] ++ Action.PressKey .B :: [.PressKey .C])) =
      (([Action.PressKey .A].map fun a => (Action.execute envFailB a).1).flatten ++
          (Action.execute envFailB (.PressKey .B)).1,
        .fail (.CallFailed (.simulate_key .B .Press)))
    ∧ ∀ l : List Action, (∀ a ∈ l, (Action.execute envFailB a).2 = .ok) →
        Action.execute envFailB (.Sequence l) =
          ((l.map fun a => (Action.execute envFailB a).1).flatten, .ok) :=
  sequence_fail_fast envFailB [.PressKey .A] [.PressKey .C] (.PressKey .B)
    (.CallFailed (.simulate_key .B .Press)) (by decide) (by decide)

/-- The model of an executor that accepts every primitive call; its
`gen_range` returns the lower bound of the range (a legitimate draw). -/
def envAllOk : ExecModel :=
  ⟨fun _ _ => true, fun _ _ => true, fun lo _ => lo⟩

/-- C8 counterexample: with `min = max` = 1.5 ms (1500000 ns) the drawn
range is `as_millis(min)..=as_millis(max)` = `1..=1`, so the draw is in
range, yet `RandomDelay` sleeps `from_millis(1)` = 1 ms while
`Delay(min)` sleeps the full 1.5 ms: the two executions differ, refuting
the claimed degenerate-case equivalence for sub-millisecond durations. -/
theorem randomDelay_subMillisecond_counterexample :
    (1 ≤ envAllOk.gen_range 1 1 ∧ envAllOk.gen_range 1 1 ≤ 1)
    ∧ Action.execute envAllOk (.RandomDelay 1500000 1500000) =
        ([.sleep 1000000], .ok)
    ∧ Action.execute envAllOk (.Delay 1500000) = ([.sleep 1500000], .ok)
    ∧ Action.execute envAllOk (.RandomDelay 1500000 1500000) ≠
        Action.execute envAllOk (.Delay 1500000) := by
  exact ⟨by decide, rfl, rfl, by decide⟩

/-- C8 (amended): for `min ≤ max` and a `gen_range` that honours the
inclusive-range contract, `RandomDelay` behaves as `Delay` of
`from_millis(m)` for some whole-millisecond draw `m` within
`as_millis(min)..=as_millis(max)`; and in the degenerate case `min = max`,
when `min` is a whole number of milliseconds (below the `u64` cast bound),
`RandomDelay{min, max}` is equivalent to `Delay(min)`. -/
theorem randomDelay_amended (env : ExecModel)
    (hdraw : ∀ a b : Nat, a ≤ b → a ≤ env.gen_range a b ∧ env.gen_range a b ≤ b)
    (lo hi : Duration) (hle : lo ≤ hi) :
    (∃ m : Nat, durationAsMillis lo ≤ m ∧ m ≤ durationAsMillis hi ∧
        Action.execute env (.RandomDelay lo hi) =
          Action.execute env (.Delay (durationFromMillis (m % 2 ^ 64))))
    ∧ (lo = hi → lo % 1000000 = 0 → durationAsMillis lo < 2 ^ 64 →
        Action.execute env (.RandomDelay lo hi) = Action.execute env (.Delay lo)) := by
  have hms : durationAsMillis lo ≤ durationAsMillis hi :=
    Nat.div_le_div_right hle
  have hnotlt : ¬ durationAsMillis hi < durationAsMillis lo := not_lt.mpr hms
  have hexec : Action.execute env (.RandomDelay lo hi) =
      ([.sleep (durationFromMillis
          (env.gen_range (durationAsMillis lo) (durationAsMillis hi) % 2 ^ 64))],
        .ok) := by
    rw [Action.execute, if_neg hnotlt]
  constructor
  · refine ⟨env.gen_range (durationAsMillis lo) (durationAsMillis hi),
      (hdraw _ _ hms).1, (hdraw _ _ hms).2, ?_⟩
    rw [hexec]
    rfl
  · intro heq hwhole hlt
    subst heq
    have hdd := hdraw (durationAsMillis lo) (durationAsMillis lo) (Nat.le_refl _)
    have hfix : env.gen_range (durationAsMillis lo) (durationAsMillis lo) =
        durationAsMillis lo := Nat.le_antisymm hdd.2 hdd.1
    rw [hexec, hfix, Nat.mod_eq_of_lt hlt]
    have : durationFromMillis (durationAsMillis lo) = lo := by
      rw [durationFromMillis, durationAsMillis]
      exact Nat.div_mul_cancel (Nat.dvd_of_mod_eq_zero hwhole)
    rw [this]
    rfl

/-- C8 witness: the amended statement at `min` = 1 ms, `max` = 3 ms against
the all-accepting executor whose draw is the lower bound. -/
theorem randomDelay_amended_witness :
    (∃ m : Nat, durationAsMillis 1000000 ≤ m ∧ m ≤ durationAsMillis 3000000 ∧
        Action.execute envAllOk (.RandomDelay 1000000 3000000) =
          Action.execute envAllOk (.Delay (durationFromMillis (m % 2 ^ 64))))
    ∧ ((1000000 : Duration) = 3000000 → (1000000 : Duration) % 1000000 = 0 →
        durationAsMillis 1000000 < 2 ^ 64 →
        Action.execute envAllOk (.RandomDelay 1000000 3000000) =
          Action.execute envAllOk (.Delay 1000000)) :=
  randomDelay_amended envAllOk (fun a b h => ⟨Nat.le_refl a, h⟩) 1000000 3000000
    (by decide)

/-- The observable behaviour of typing text: the ordered primitive calls,
the per-character warnings for unmapped characters, and the outcome. -/
structure TypeOut where
  calls : List PrimCall
  warnings : List Char
  outcome : Outcome
deriving DecidableEq, Repr

/-- Modelled from the spec: `TypeText` is `todo!()` in the source
(`action-executor` only notes "Map characters to key sequences"), so this
follows §4.4 — each character maps through the fixed character table
`char_map` (the exact table being an implementation choice, it is a
parameter) to a `(Key, needs-shift)` pair; a mapped character emits
shift-press (if needed), key press, key release, shift-release (if needed)
through the executor with `?`-propagation of call failures; an unmapped
character is skipped and recorded as a non-fatal per-character warning. -/
def typeChar (env : ExecModel) (char_map : Char → Option (Key × Bool)) (c : Char) :
    TypeOut :=
  match char_map c with
  | none => ⟨[], [c], .ok⟩
  | some (key, needsShift) =>
      let r :=
        if needsShift then
          andThenE (simulate_key_call env .Shift .Press) fun _ =>
            andThenE (simulate_key_call env key .Press) fun _ =>
              andThenE (simulate_key_call env key .Release) fun _ =>
                simulate_key_call env .Shift .Release
        else
          andThenE (simulate_key_call env key .Press) fun _ =>
            simulate_key_call env key .Release
      ⟨r.1, [], r.2⟩

/-- Modelled from the spec: typing a list of characters in order —
character after character, stopping only when a primitive call fails
(never because a character is unmapped). -/
def typeTextRun (env : ExecModel) (char_map : Char → Option (Key × Bool)) :
    List Char → TypeOut
  | [] => ⟨[], [], .ok⟩
  | c :: rest =>
      let r := typeChar env char_map c
      match r.outcome with
      | .ok =>
          let r2 := typeTextRun env char_map rest
          ⟨r.calls ++ r2.calls, r.warnings ++ r2.warnings, r2.outcome⟩
      | .fail e => ⟨r.calls, r.warnings, .fail e⟩

/-- Modelled from the spec: executing `TypeText(s)` is typing `s`'s
characters in order. -/
def typeTextModel (env : ExecModel) (char_map : Char → Option (Key × Bool))
    (s : String) : TypeOut :=
  typeTextRun env char_map s.data

theorem typeTextRun_append_of_ok (env : ExecModel)
    (char_map : Char → Option (Key × Bool)) (c1 c2 : List Char)
    (h1 : (typeTextRun env char_map c1).outcome = .ok) :
    typeTextRun env char_map (c1 ++ c2) =
      ⟨(typeTextRun env char_map c1).calls ++ (typeTextRun env char_map c2).calls,
        (typeTextRun env char_map c1).warnings ++ (typeTextRun env char_map c2).warnings,
        (typeTextRun env char_map c2).outcome⟩ := by
  induction c1 with
  | nil => simp [typeTextRun]
  | cons c rest ih =>
      rw [List.cons_append, typeTextRun]
      rw [typeTextRun] at h1
      cases hc : (typeChar env char_map c).outcome with
      | ok =>
          rw [hc] at h1
          simp only at h1 ⊢
          have hrest : (typeTextRun env char_map rest).outcome = .ok := h1
          rw [ih hrest]
          simp [typeTextRun, hc]
      | fail e =>
          rw [hc] at h1
          simp only at h1
          cases h1

/-- C7: typing skips unmapped characters non-fatally and continues.  An
unmapped character `c` emits no primitive call, is recorded as exactly one
per-character warning, and typing `c1 ++ c :: c2` behaves as typing `c1`
then `c2` (trace and warnings concatenate around it, the outcome is the
remainder's — the string never fails or aborts because of `c`); and a
mapped character emits its key press and release bracketed by shift
press/release exactly when the table says shift is needed. -/
theorem typeText_skips_unmapped (env : ExecModel)
    (char_map : Char → Option (Key × Bool)) (c1 c2 : List Char) (c : Char)
    (hc : char_map c = none)
    (h1 : (typeTextRun env char_map c1).outcome = .ok) :
    (typeChar env char_map c = ⟨[], [c], .ok⟩)
    ∧ typeTextRun env char_map (c1 ++ c :: c2) =
        ⟨(typeTextRun env char_map c1).calls ++ (typeTextRun env char_map c2).calls,
          (typeTextRun env char_map c1).warnings ++
            c :: (typeTextRun env char_map c2).warnings,
          (typeTextRun env char_map c2).outcome⟩
    ∧ (∀ (ch : Char) (key : Key) (needsShift : Bool),
        char_map ch = some (key, needsShift) →
        (∀ k s, env.key_ok k s = true) →
        typeChar env char_map ch =
          ⟨(if needsShift then [.simulate_key .Shift .Press] else []) ++
              [.simulate_key key .Press, .simulate_key key .Release] ++
              (if needsShift then [.simulate_key .Shift .Release] else []),
            [], .ok⟩) := by
  have hskip : typeChar env char_map c = ⟨[], [c], .ok⟩ := by
    rw [typeChar, hc]
  refine ⟨hskip, ?_, ?_⟩
  · rw [typeTextRun_append_of_ok env char_map c1 (c :: c2) h1]
    rw [typeTextRun, hskip]
    simp
  · intro ch key needsShift hmap hok
    rw [typeChar, hmap]
    cases needsShift with
    | false =>
        simp only [if_false, Bool.false_eq_true]
        rw [simulate_key_call, simulate_key_call, hok, hok]
        rfl
    | true =>
        simp only [if_true]
        rw [simulate_key_call, simulate_key_call, simulate_key_call,
          simulate_key_call, hok, hok, hok, hok]
        rfl

/-- A small character table for the witness: lowercase `a` maps to `A`
without shift, uppercase `A` maps to `A` with shift, everything else is
unmapped. -/
def charMapW (c : Char) : Option (Key × Bool) :=
  if c = 'a' then some (Key.A, false)
  else if c = 'A' then some (Key.A, true)
  else none

/-- C7 witness: typing `"a!A"` against the all-accepting executor — the
`'!'` is unmapped, so it is skipped with one warning and the string
continues. -/
theorem typeText_skips_unmapped_witness :
    (typeChar envAllOk charMapW '!' = ⟨[], ['!'], .ok⟩)
    ∧ typeTextRun envAllOk charMapW (['a'] ++ '!' :: ['A']) =
        ⟨(typeTextRun envAllOk charMapW ['a']).calls ++
            (typeTextRun envAllOk charMapW ['A']).calls,
          (typeTextRun envAllOk charMapW ['a']).warnings ++
            '!' :: (typeTextRun envAllOk charMapW ['A']).warnings,
          (typeTextRun envAllOk charMapW ['A']).outcome⟩
    ∧ (∀ (ch : Char) (key : Key) (needsShift : Bool),
        charMapW ch = some (key, needsShift) →
        (∀ k s, envAllOk.key_ok k s = true) →
        typeChar envAllOk charMapW ch =
          ⟨(if needsShift then [.simulate_key .Shift .Press] else []) ++
              [.simulate_key key .Press, .simulate_key key .Release] ++
              (if needsShift then [.simulate_key .Shift .Release] else []),
            [], .ok⟩) :=
  typeText_skips_unmapped envAllOk charMapW ['a'] ['A'] '!' (by decide) (by decide)

/-- The modifier a modifier key stands for, when it is one. -/
def keyToModifier : Key → Option Modifier
  | .Ctrl => some .Ctrl
  | .Shift => some .Shift
  | .Alt => some .Alt
  | .Meta => some .Meta
  | _ => none

/-- Modelled from the spec: the full set of currently-held Modifiers, read
off the State Tracker's held keys. -/
def StateTracker.activeModifiers (s : StateTracker) : List Modifier :=
  s.held_keys.filterMap keyToModifier

/-- Specificity (§4.2 and glossary): the size of a Hotkey's modifier set
(the `modifiers` sequence counted without duplicates). -/
def Hotkey.specificity (h : Hotkey) : Nat := h.modifiers.dedup.length

/-- Modelled from the spec (§4.2 matching rule): a Hotkey matches when its
Trigger equals the event's Trigger and its modifier set is a subset of the
active modifiers. -/
def Hotkey.matchesEvent (h : Hotkey) (trigger : Trigger) (active : List Modifier) :
    Bool :=
  h.trigger == trigger && h.modifiers.all fun m => active.contains m

/-- One step of the most-specific selection: a matching binding replaces the
candidate when strictly more specific (so of equally specific matches the
earliest — most recently bound, in this registry model — entry is kept). -/
def selectStep (trigger : Trigger) (active : List Modifier)
    (best : Option (Hotkey × Action)) (p : Hotkey × Action) :
    Option (Hotkey × Action) :=
  if p.1.matchesEvent trigger active then
    match best with
    | none => some p
    | some q => if q.1.specificity < p.1.specificity then some p else best
  else best

/-- Modelled from the spec (§4.2): `resolve(trigger, active_modifiers)`
returns the Action bound to the most specific matching Hotkey, or none.
The source's `BindingRegistry` has no such method (the matching is a
`TODO` in `EventProcessor::process_event`). -/
def BindingRegistry.resolve (r : BindingRegistry) (trigger : Trigger)
    (active : List Modifier) : Option Action :=
  (r.bindings.foldl (selectStep trigger active) none).map Prod.snd

/-- The `EventProcessor` of `binding-engine`. -/
structure EventProcessor where
  registry : BindingRegistry
  state : StateTracker

/-- `EventProcessor::new`. -/
def EventProcessor.new (registry : BindingRegistry) : EventProcessor :=
  ⟨registry, StateTracker.new⟩

/-- Modelled from the spec (§4.3): capture the active modifiers BEFORE
applying the event to the tracker, apply the event, and resolve a press's
trigger against the Binding Registry.  The source's `process_event` updates
the tracker but stubs the matching (`TODO` — it always returns `None`). -/
def EventProcessor.process_event (proc : EventProcessor) (event : InputEvent) :
    EventProcessor × Option Action :=
  let active := proc.state.activeModifiers
  let state := proc.state.update event
  let action :=
    match event with
    | .KeyPress key => proc.registry.resolve (.Key key) active
    | .MousePress button => proc.registry.resolve (.MouseButton button) active
    | _ => none
  ({ proc with state := state }, action)

theorem selectFold_spec (trigger : Trigger) (active : List Modifier) :
    ∀ (l : List (Hotkey × Action)) (acc : Option (Hotkey × Action)),
      (∀ q, acc = some q → q.1.matchesEvent trigger active = true) →
      ((∀ q, l.foldl (selectStep trigger active) acc = some q →
          (q ∈ l ∨ acc = some q) ∧ q.1.matchesEvent trigger active = true)
      ∧ (∀ p ∈ l, p.1.matchesEvent trigger active = true →
          ∃ q, l.foldl (selectStep trigger active) acc = some q ∧
            p.1.specificity ≤ q.1.specificity)
      ∧ (∀ q, acc = some q →
          ∃ q', l.foldl (selectStep trigger active) acc = some q' ∧
            q.1.specificity ≤ q'.1.specificity)) := by
  intro l
  induction l with
  | nil =>
      intro acc hacc
      refine ⟨?_, ?_, ?_⟩
      · intro q hq
        exact ⟨Or.inr hq, hacc q hq⟩
      · intro p hp
        cases hp
      · intro q hq
        exact ⟨q, hq, Nat.le_refl _⟩
  | cons p rest ih =>
      intro acc hacc
      have hacc' : ∀ q, selectStep trigger active acc p = some q →
          q.1.matchesEvent trigger active = true := by
        intro q hq
        by_cases hP : p.1.matchesEvent trigger active = true
        · rw [selectStep.eq_def, if_pos hP] at hq
          cases acc with
          | none => cases hq; exact hP
          | some q0 =>
              simp only at hq
              by_cases hlt : q0.1.specificity < p.1.specificity
              · rw [if_pos hlt] at hq; cases hq; exact hP
              · rw [if_neg hlt] at hq; exact hacc q hq
        · rw [selectStep.eq_def, if_neg hP] at hq
          exact hacc q hq
      have hstep_mem : ∀ q, selectStep trigger active acc p = some q →
          q = p ∨ acc = some q := by
        intro q hq
        by_cases hP : p.1.matchesEvent trigger active = true
        · rw [selectStep.eq_def, if_pos hP] at hq
          cases acc with
          | none => cases hq; exact Or.inl rfl
          | some q0 =>
              simp only at hq
              by_cases hlt : q0.1.specificity < p.1.specificity
              · rw [if_pos hlt] at hq; cases hq; exact Or.inl rfl
              · rw [if_neg hlt] at hq; exact Or.inr hq
        · rw [selectStep.eq_def, if_neg hP] at hq
          exact Or.inr hq
      have hstep_p : p.1.matchesEvent trigger active = true →
          ∃ q, selectStep trigger active acc p = some q ∧
            p.1.specificity ≤ q.1.specificity := by
        intro hP
        rw [selectStep.eq_def, if_pos hP]
        cases acc with
        | none => exact ⟨p, rfl, Nat.le_refl _⟩
        | some q0 =>
            simp only
            by_cases hlt : q0.1.specificity < p.1.specificity
            · rw [if_pos hlt]
              exact ⟨p, rfl, Nat.le_refl _⟩
            · rw [if_neg hlt]
              exact ⟨q0, rfl, Nat.le_of_not_lt hlt⟩
      have hstep_keep : ∀ q, acc = some q →
          ∃ q', selectStep trigger active acc p = some q' ∧
            q.1.specificity ≤ q'.1.specificity := by
        intro q hq
        subst hq
        by_cases hP : p.1.matchesEvent trigger active = true
        · rw [selectStep.eq_def, if_pos hP]
          simp only
          by_cases hlt : q.1.specificity < p.1.specificity
          · rw [if_pos hlt]
            exact ⟨p, rfl, Nat.le_of_lt hlt⟩
          · rw [if_neg hlt]
            exact ⟨q, rfl, Nat.le_refl _⟩
        · rw [selectStep.eq_def, if_neg hP]
          exact ⟨q, rfl, Nat.le_refl _⟩
      obtain ⟨ihA, ihB, ihC⟩ := ih (selectStep trigger active acc p) hacc'
      rw [List.foldl_cons]
      refine ⟨?_, ?_, ?_⟩
      · intro q hq
        obtain ⟨hmem, hq_matches⟩ := ihA q hq
        refine ⟨?_, hq_matches⟩
        rcases hmem with hmem | hmem
        · exact Or.inl (List.mem_cons_of_mem p hmem)
        · rcases hstep_mem q hmem with rfl | hmem'
          · exact Or.inl (List.mem_cons_self _ _)
          · exact Or.inr hmem'
      · intro p0 hp0 hP0
        rcases List.mem_cons.mp hp0 with rfl | hp0'
        · obtain ⟨q, hq, hle⟩ := hstep_p hP0
          obtain ⟨q', hq', hle'⟩ := ihC q hq
          exact ⟨q', hq', Nat.le_trans hle hle'⟩
        · exact ihB p0 hp0' hP0
      · intro q hq
        obtain ⟨q', hq', hle⟩ := hstep_keep q hq
        obtain ⟨q'', hq'', hle'⟩ := ihC q' hq'
        exact ⟨q'', hq'', Nat.le_trans hle hle'⟩

/-- The press `InputEvent` carrying a given Trigger: a key trigger is
pressed by `KeyPress`, a mouse-button trigger by `MousePress`. -/
def Trigger.pressEvent : Trigger → InputEvent
  | .Key key => .KeyPress key
  | .MouseButton button => .MousePress button

/-- The registry of the spec's §8 scenario: `Hotkey(no modifiers, P)` bound
first, `Hotkey({Ctrl}, P)` bound second, with distinguishable actions. -/
def registryPCtrl : BindingRegistry :=
  (BindingRegistry.new.bind (Hotkey.combo [] (.Key .P)) (.PressKey .A)).bind
    (Hotkey.combo [.Ctrl] (.Key .P)) (.PressKey .B)

/-- The mouse binding of the repository's configuration: `Button4` (no
modifiers) mapped to a right click. -/
def registryMouse : BindingRegistry :=
  BindingRegistry.new.bind (Hotkey.mouse .Button4) (.Click .Right)

/-- C1: for every press event — of a key or of a mouse button — whose
trigger has a matching bound Hotkey, `process_event` returns the Action of
a matching Hotkey of maximal specificity: a bound, matching Hotkey whose
modifier set is at least as large as every other matching binding's.  In
particular, with bindings for `Hotkey(no modifiers, P)` and
`Hotkey({Ctrl}, P)`, pressing `P` while `Ctrl` is held yields the `{Ctrl}`
binding's Action and pressing `P` alone yields the unmodified binding's
Action; and with the configuration's `Hotkey::mouse(Button4)` binding,
pressing `Button4` yields its `Click(Right)` Action. -/
theorem process_event_resolves_most_specific (reg : BindingRegistry)
    (st : StateTracker) (t : Trigger)
    (hmatch : (reg.bindings.any fun p =>
        p.1.matchesEvent t st.activeModifiers) = true) :
    (∃ h a, (h, a) ∈ reg.bindings
      ∧ h.matchesEvent t st.activeModifiers = true
      ∧ (∀ p ∈ reg.bindings,
          p.1.matchesEvent t st.activeModifiers = true →
            p.1.specificity ≤ h.specificity)
      ∧ ((EventProcessor.mk reg st).process_event t.pressEvent).2 = some a)
    ∧ ((EventProcessor.mk registryPCtrl
          (StateTracker.new.update (.KeyPress .Ctrl))).process_event
            (.KeyPress .P)).2 = some (.PressKey .B)
    ∧ ((EventProcessor.mk registryPCtrl StateTracker.new).process_event
          (.KeyPress .P)).2 = some (.PressKey .A)
    ∧ ((EventProcessor.mk registryMouse StateTracker.new).process_event
          (.MousePress .Button4)).2 = some (.Click .Right) := by
  refine ⟨?_, rfl, rfl, rfl⟩
  obtain ⟨p0, hp0, hP0⟩ := List.any_eq_true.mp hmatch
  obtain ⟨A, B, C⟩ := selectFold_spec t st.activeModifiers reg.bindings
    none (fun q hq => by cases hq)
  obtain ⟨q, hres, _⟩ := B p0 hp0 hP0
  obtain ⟨hqmem, hqmatch⟩ := A q hres
  have hqmem' : q ∈ reg.bindings := by
    rcases hqmem with h | h
    · exact h
    · cases h
  refine ⟨q.1, q.2, hqmem', hqmatch, ?_, ?_⟩
  · intro p hp hP
    obtain ⟨q2, hres2, hle⟩ := B p hp hP
    rw [hres] at hres2
    cases hres2
    exact hle
  · have hpe : ((EventProcessor.mk reg st).process_event t.pressEvent).2 =
        reg.resolve t st.activeModifiers := by
      cases t <;> rfl
    rw [hpe, BindingRegistry.resolve, hres]
    rfl

/-- C1 witness: pressing mouse `Button4` against the configuration's
`Hotkey::mouse(Button4) → Click(Right)` registry has a matching binding,
and the resolved action is that of the most specific matching Hotkey. -/
theorem process_event_resolves_most_specific_witness :
    (∃ h a, (h, a) ∈ registryMouse.bindings
      ∧ h.matchesEvent (.MouseButton .Button4) StateTracker.new.activeModifiers = true
      ∧ (∀ p ∈ registryMouse.bindings,
          p.1.matchesEvent (.MouseButton .Button4)
              StateTracker.new.activeModifiers = true →
            p.1.specificity ≤ h.specificity)
      ∧ ((EventProcessor.mk registryMouse StateTracker.new).process_event
            (Trigger.MouseButton .Button4).pressEvent).2 = some a)
    ∧ ((EventProcessor.mk registryPCtrl
          (StateTracker.new.update (.KeyPress .Ctrl))).process_event
            (.KeyPress .P)).2 = some (.PressKey .B)
    ∧ ((EventProcessor.mk registryPCtrl StateTracker.new).process_event
          (.KeyPress .P)).2 = some (.PressKey .A)
    ∧ ((EventProcessor.mk registryMouse StateTracker.new).process_event
          (.MousePress .Button4)).2 = some (.Click .Right) :=
  process_event_resolves_most_specific registryMouse StateTracker.new
    (.MouseButton .Button4) (by decide)

end HandPlusPlus
